import Mathlib

/-!
# Verification of DiskSage `find_duplicates_e_drive.py`

A shallow embedding of the duplicate-file finder.  File contents are byte
lists, the filesystem is a total map from paths to contents together with
per-file readability flags (an unreadable file models an `OSError` /
`PermissionError` raised while opening or reading it), and the external
hash library (`hashlib.md5` / `hashlib.sha256`) is an abstract `HashModel`
whose hex encoding is made explicit: `hexdigest()` always renders the
digest as a fixed-width lowercase hex string (32 characters for md5,
64 for sha256), which is what makes the empty-string failure sentinel
of `partial_hash` / `full_hash` unambiguous.
-/

namespace DiskSage

/-- One lowercase hex digit character: `0`..`9` then `a`..`f`
(`'0' = 48`, `'a' = 97`); callers pass a value `< 16`. -/
def hexDigit (n : Nat) : Char :=
  if n < 10 then Char.ofNat (48 + n) else Char.ofNat (87 + n)

/-- Big-endian rendering of `n` on exactly `w` hex digits, the shape of
Python's `hexdigest()` output (extra high bits beyond `w` digits cannot
occur for a real digest; the recursion simply discards them). -/
def hexChars : Nat → Nat → List Char
  | 0, _ => []
  | w + 1, n => hexChars w (n / 16) ++ [hexDigit (n % 16)]

/-- `hexdigest()`-style string: exactly `w` lowercase hex characters. -/
def hexStr (w n : Nat) : String :=
  ⟨hexChars w n⟩

/-- Recogniser for lowercase hex digit characters. -/
def isHexChar (c : Char) : Bool :=
  (48 ≤ c.toNat && c.toNat ≤ 57) || (97 ≤ c.toNat && c.toNat ≤ 102)

theorem hexChars_length (w n : Nat) : (hexChars w n).length = w := by
  induction w generalizing n with
  | zero => rfl
  | succ w ih => simp [hexChars, ih]

theorem hexStr_length (w n : Nat) : (hexStr w n).length = w :=
  hexChars_length w n

theorem hexStr_ne_empty {w : Nat} (n : Nat) (hw : 0 < w) : hexStr w n ≠ "" := by
  intro h
  have hl := hexStr_length w n
  rw [h] at hl
  simp [String.length] at hl
  omega

theorem hexDigit_isHexChar {n : Nat} (h : n < 16) : isHexChar (hexDigit n) = true := by
  interval_cases n <;> decide

theorem hexChars_all_hex (w n : Nat) : ∀ c ∈ hexChars w n, isHexChar c = true := by
  induction w generalizing n with
  | zero => intro c hc; simp [hexChars] at hc
  | succ w ih =>
    intro c hc
    simp only [hexChars, List.mem_append, List.mem_singleton] at hc
    rcases hc with hc | hc
    · exact ih _ c hc
    · subst hc; exact hexDigit_isHexChar (Nat.mod_lt _ (by decide))

/-- The external hash library: abstract digest values for `hashlib.md5`
(over the bytes actually fed to it) and `hashlib.sha256`.  A digest is a
pure function of the hashed bytes, which is all the program relies on. -/
structure HashModel where
  md5 : List Nat → Nat
  sha256 : List Nat → Nat

/-- The filesystem as seen by one run: each path has a byte content, and
two readability flags saying whether the `open`/`read` calls performed by
`partial_hash` resp. `full_hash` succeed (failure models the caught
`OSError` / `PermissionError`; the two reads happen at different times,
so they may fail independently on a changing filesystem). -/
structure FS where
  content : String → List Nat
  readPartialOk : String → Bool
  readFullOk : String → Bool

/-- `partial_hash(path, chunk_size=8192)` (source lines 47–55): md5 of the
first 8 KiB — `f.read(8192)` returns the first `min 8192 (size)` bytes —
rendered by `hexdigest()` as 32 hex characters; an `OSError` /
`PermissionError` is caught and yields `""`. -/
def partial_hash (H : HashModel) (fs : FS) (path : String) : String :=
  if fs.readPartialOk path then hexStr 32 (H.md5 ((fs.content path).take 8192)) else ""

/-- `full_hash(path, chunk_size=65536)` (source lines 57–66): sha256 of the
whole file — the 64 KiB chunks read by the `while chunk := f.read(...)`
loop concatenate to the entire content — rendered by `hexdigest()` as
64 hex characters; a caught read failure yields `""`. -/
def full_hash (H : HashModel) (fs : FS) (path : String) : String :=
  if fs.readFullOk path then hexStr 64 (H.sha256 (fs.content path)) else ""

/-- `defaultdict(list)` with `m[k].append(v)`: an association list whose
key order is first-insertion order and whose per-key values keep append
order — exactly Python's dict iteration semantics. -/
def insertMulti : List (String × List String) → String → String → List (String × List String)
  | [], k, v => [(k, [v])]
  | (k', vs) :: rest, k, v =>
    if k' = k then (k', vs ++ [v]) :: rest else (k', vs) :: insertMulti rest k v

/-- Python `m[k]` on the finished dict (`[]` when absent). -/
def lookupVal : List (String × List String) → String → List String
  | [], _ => []
  | (k', vs) :: rest, k => if k' = k then vs else lookupVal rest k

/-- The shared shape of Pass 2 and Pass 3 (source lines 103–107 and
113–117): `h := hash(p); if h: m[h].append(p)` folded over `paths`,
starting from an empty `defaultdict(list)`. -/
def buildHashMap (h : String → String) (paths : List String) : List (String × List String) :=
  paths.foldl (fun m p => if h p = "" then m else insertMulti m (h p) p) []

theorem lookupVal_insertMulti_self (m : List (String × List String)) (k v : String) :
    lookupVal (insertMulti m k v) k = lookupVal m k ++ [v] := by
  induction m with
  | nil => simp [insertMulti, lookupVal]
  | cons e rest ih =>
    obtain ⟨k', vs⟩ := e
    by_cases hk : k' = k
    · subst hk; simp [insertMulti, lookupVal]
    · simp [insertMulti, lookupVal, hk, ih]

theorem lookupVal_insertMulti_other (m : List (String × List String)) {k k₀ : String}
    (v : String) (hne : k₀ ≠ k) :
    lookupVal (insertMulti m k₀ v) k = lookupVal m k := by
  induction m with
  | nil => simp [insertMulti, lookupVal, hne]
  | cons e rest ih =>
    obtain ⟨k', vs⟩ := e
    by_cases hk : k' = k₀
    · subst hk; simp [insertMulti, lookupVal, hne]
    · by_cases hk2 : k' = k <;> simp [insertMulti, lookupVal, hk, hk2, ih, hne, Ne.symm hne]

theorem lookupVal_mem {m : List (String × List String)} {k : String}
    (h : lookupVal m k ≠ []) : (k, lookupVal m k) ∈ m := by
  induction m with
  | nil => simp [lookupVal] at h
  | cons e rest ih =>
    obtain ⟨k', vs⟩ := e
    by_cases hk : k' = k
    · subst hk; simp [lookupVal] at h ⊢
    · have heq : lookupVal ((k', vs) :: rest) k = lookupVal rest k := by
        simp [lookupVal, hk]
      rw [heq] at h ⊢
      exact List.mem_cons_of_mem _ (ih h)

/-- Value looked up under each inserted key of `buildHashMap`: exactly the
input paths whose (non-empty) hash is that key, in input order. -/
theorem lookupVal_buildHashMap (h : String → String) (paths : List String)
    {k : String} (hk : k ≠ "") :
    lookupVal (buildHashMap h paths) k = paths.filter (fun p => h p = k) := by
  suffices H : ∀ (ps : List String) (m : List (String × List String)),
      lookupVal (ps.foldl (fun m p => if h p = "" then m else insertMulti m (h p) p) m) k
        = lookupVal m k ++ ps.filter (fun p => h p = k) by
    simpa [buildHashMap, lookupVal] using H paths []
  intro ps
  induction ps with
  | nil => intro m; simp
  | cons p ps ih =>
    intro m
    by_cases hp : h p = ""
    · simp [hp, ih, Ne.symm hk]
    · by_cases hpk : h p = k
      · subst hpk
        simp [hp, ih, lookupVal_insertMulti_self, List.append_assoc]
      · simp [hp, hpk, ih, lookupVal_insertMulti_other _ _ hpk]

theorem map_fst_insertMulti (m : List (String × List String)) (k v : String) :
    (insertMulti m k v).map Prod.fst
      = if k ∈ m.map Prod.fst then m.map Prod.fst else m.map Prod.fst ++ [k] := by
  induction m with
  | nil => simp [insertMulti]
  | cons e rest ih =>
    obtain ⟨k', vs⟩ := e
    by_cases hk : k' = k
    · subst hk; simp [insertMulti]
    · have hne : ¬ k = k' := fun hh => hk hh.symm
      by_cases hmem : k ∈ rest.map Prod.fst <;>
        simp [insertMulti, hk, hne, hmem, ih]

theorem keysNodup_insertMulti {m : List (String × List String)} (k v : String)
    (hm : (m.map Prod.fst).Nodup) : ((insertMulti m k v).map Prod.fst).Nodup := by
  rw [map_fst_insertMulti]
  by_cases hmem : k ∈ m.map Prod.fst
  · simpa [hmem] using hm
  · simp only [hmem, if_false]
    refine List.Nodup.append hm (List.nodup_singleton k) ?_
    intro x hx hxk
    rw [List.mem_singleton] at hxk
    subst hxk
    exact hmem hx

/-- Keys of the finished dict are pairwise distinct (it is a dict). -/
theorem keysNodup_buildHashMap (h : String → String) (paths : List String) :
    ((buildHashMap h paths).map Prod.fst).Nodup := by
  suffices H : ∀ (ps : List String) (m : List (String × List String)),
      (m.map Prod.fst).Nodup →
      ((ps.foldl (fun m p => if h p = "" then m else insertMulti m (h p) p) m).map
        Prod.fst).Nodup by
    exact H paths [] (by simp)
  intro ps
  induction ps with
  | nil => intro m hm; simpa using hm
  | cons p ps ih =>
    intro m hm
    by_cases hp : h p = ""
    · simpa [hp] using ih m hm
    · simpa [hp] using ih _ (keysNodup_insertMulti _ _ hm)

/-- With distinct keys, an entry's value is what lookup returns. -/
theorem entry_eq_lookupVal {m : List (String × List String)} {k : String}
    {vs : List String} (hnd : (m.map Prod.fst).Nodup) (hmem : (k, vs) ∈ m) :
    lookupVal m k = vs := by
  induction m with
  | nil => simp at hmem
  | cons e rest ih =>
    obtain ⟨k', vs'⟩ := e
    simp only [List.map_cons, List.nodup_cons] at hnd
    rcases List.mem_cons.mp hmem with he | he
    · obtain ⟨hk, hv⟩ := Prod.mk.injEq .. ▸ he
      simp_all [lookupVal]
    · have hk : k' ≠ k := by
        rintro rfl
        exact hnd.1 (by simpa using List.mem_map_of_mem Prod.fst he)
      simp only [lookupVal, hk, if_false]
      exact ih hnd.2 he

/-- An entry of `insertMulti m k v` either carries the inserted key or was
already an entry of `m`. -/
theorem mem_insertMulti {m : List (String × List String)} {k v : String}
    {e : String × List String} (he : e ∈ insertMulti m k v) : e.1 = k ∨ e ∈ m := by
  induction m with
  | nil =>
    simp only [insertMulti, List.mem_singleton] at he
    left; rw [he]
  | cons hd rest ih =>
    obtain ⟨k', vs⟩ := hd
    by_cases hk : k' = k
    · subst hk
      rcases List.mem_cons.mp (by simpa [insertMulti] using he) with h1 | h1
      · left; rw [h1]
      · right; exact List.mem_cons_of_mem _ h1
    · rcases List.mem_cons.mp (by simpa [insertMulti, hk] using he) with h1 | h1
      · right; rw [h1]; exact List.mem_cons_self _ _
      · rcases ih h1 with h2 | h2
        · left; exact h2
        · right; exact List.mem_cons_of_mem _ h2

/-- Every key of the finished dict is a non-empty hash value. -/
theorem key_ne_empty_buildHashMap (h : String → String) (paths : List String)
    {e : String × List String} (hmem : e ∈ buildHashMap h paths) : e.1 ≠ "" := by
  suffices H : ∀ (ps : List String) (m : List (String × List String)),
      (∀ x ∈ m, x.1 ≠ "") →
      ∀ x ∈ ps.foldl (fun m p => if h p = "" then m else insertMulti m (h p) p) m,
      x.1 ≠ "" by
    exact H paths [] (by simp) e hmem
  intro ps
  induction ps with
  | nil => intro m hm x hx; exact hm x (by simpa using hx)
  | cons p ps ih =>
    intro m hm x hx
    by_cases hp : h p = ""
    · exact ih m hm x (by simpa [hp] using hx)
    · refine ih _ ?_ x (by simpa [hp] using hx)
      intro y hy
      rcases mem_insertMulti hy with h1 | h1
      · rw [h1]; exact hp
      · exact hm y h1

/-- Every entry of the finished dict: non-empty key, and its value list is
the ordered filter of the inputs hashing to that key. -/
theorem entry_buildHashMap (h : String → String) (paths : List String)
    {k : String} {vs : List String} (hmem : (k, vs) ∈ buildHashMap h paths) :
    k ≠ "" ∧ vs = paths.filter (fun p => h p = k) ∧ ∀ p ∈ vs, h p = k := by
  have hk : k ≠ "" := key_ne_empty_buildHashMap h paths hmem
  have hv : vs = paths.filter (fun p => h p = k) := by
    have := entry_eq_lookupVal (keysNodup_buildHashMap h paths) hmem
    rw [← this, lookupVal_buildHashMap h paths hk]
  refine ⟨hk, hv, ?_⟩
  intro p hp
  rw [hv] at hp
  have := (List.mem_filter.mp hp).2
  simpa using this

/-- Completeness of the dict build: every input path with a non-empty hash
is present under its hash key. -/
theorem mem_buildHashMap_of_mem (h : String → String) {paths : List String}
    {p : String} (hp : p ∈ paths) (hh : h p ≠ "") :
    (h p, paths.filter (fun q => h q = h p)) ∈ buildHashMap h paths := by
  have hlk := lookupVal_buildHashMap h paths hh
  have hne : lookupVal (buildHashMap h paths) (h p) ≠ [] := by
    rw [hlk]
    intro hnil
    have : p ∈ paths.filter (fun q => h q = h p) := by
      simp [List.mem_filter, hp]
    rw [hnil] at this
    simp at this
  have := lookupVal_mem hne
  rwa [hlk] at this

/-- All values stored in the dict, in entry order. -/
def flattenVals (m : List (String × List String)) : List String :=
  (m.map Prod.snd).flatten

theorem flattenVals_insertMulti (m : List (String × List String)) (k v : String) :
    (flattenVals (insertMulti m k v)).Perm (flattenVals m ++ [v]) := by
  induction m with
  | nil => simp [insertMulti, flattenVals]
  | cons e rest ih =>
    obtain ⟨k', vs⟩ := e
    by_cases hk : k' = k
    · subst hk
      have h1 : flattenVals (insertMulti ((k', vs) :: rest) k' v)
          = (vs ++ [v]) ++ flattenVals rest := by
        simp [insertMulti, flattenVals]
      have h2 : flattenVals ((k', vs) :: rest) ++ [v] = vs ++ (flattenVals rest ++ [v]) := by
        simp [flattenVals]
      rw [h1, h2, List.append_assoc]
      exact List.Perm.append_left vs List.perm_append_comm
    · have h1 : flattenVals (insertMulti ((k', vs) :: rest) k v)
          = vs ++ flattenVals (insertMulti rest k v) := by
        simp [insertMulti, flattenVals, hk]
      have h2 : flattenVals ((k', vs) :: rest) ++ [v] = vs ++ (flattenVals rest ++ [v]) := by
        simp [flattenVals]
      rw [h1, h2]
      exact List.Perm.append_left vs ih

/-- The dict stores, across all of its buckets, exactly the inputs whose
hash is non-empty (as a multiset). -/
theorem flattenVals_buildHashMap (h : String → String) (paths : List String) :
    (flattenVals (buildHashMap h paths)).Perm
      (paths.filter fun p => decide (h p ≠ "")) := by
  suffices H : ∀ (ps : List String) (m : List (String × List String)),
      (flattenVals (ps.foldl (fun m p => if h p = "" then m else insertMulti m (h p) p) m)).Perm
        (flattenVals m ++ ps.filter fun p => decide (h p ≠ "")) by
    simpa [flattenVals, buildHashMap] using H paths []
  intro ps
  induction ps with
  | nil => intro m; simp
  | cons p ps ih =>
    intro m
    by_cases hp : h p = ""
    · simpa [hp] using ih m
    · have step : (flattenVals (ps.foldl
          (fun m p => if h p = "" then m else insertMulti m (h p) p)
          (insertMulti m (h p) p))).Perm
          (flattenVals (insertMulti m (h p) p) ++ ps.filter fun p => decide (h p ≠ "")) :=
        ih (insertMulti m (h p) p)
      have hperm := (flattenVals_insertMulti m (h p) p).append_right
        (ps.filter fun p => decide (h p ≠ ""))
      refine List.Perm.trans (by simpa [hp] using step) (hperm.trans ?_)
      simp [hp, List.append_assoc]

/-- `find_duplicates(size_map)` (source lines 95–123), transcribed loop by
loop: keep the size buckets with more than one path; per bucket build the
partial-hash dict, skipping empty (failed) partial hashes; for every
partial-hash bucket with at least 2 members build the full-hash dict,
skipping failed full hashes; append every full-hash bucket with at least
2 members to `duplicate_groups`. -/
def find_duplicates (H : HashModel) (fs : FS) (size_map : List (Nat × List String)) :
    List (List String) :=
  let candidates := size_map.filter fun b => 1 < b.2.length
  candidates.foldl
    (fun dupGroups b =>
      let partial_map := buildHashMap (partial_hash H fs) b.2
      partial_map.foldl
        (fun dg pb =>
          if pb.2.length < 2 then dg
          else
            let full_map := buildHashMap (full_hash H fs) pb.2
            full_map.foldl
              (fun dg2 fb => if 2 ≤ fb.2.length then dg2 ++ [fb.2] else dg2) dg)
        dupGroups)
    []

/-- The duplicate groups contributed by one size bucket. -/
def bucketGroups (H : HashModel) (fs : FS) (paths : List String) : List (List String) :=
  (buildHashMap (partial_hash H fs) paths).flatMap fun pb =>
    if pb.2.length < 2 then []
    else ((buildHashMap (full_hash H fs) pb.2).filter fun fb => 2 ≤ fb.2.length).map Prod.snd

theorem foldl_eq_append_flatMap {α β : Type} (step : List β → α → List β) (f : α → List β)
    (hstep : ∀ acc x, step acc x = acc ++ f x) :
    ∀ (l : List α) (acc : List β), l.foldl step acc = acc ++ l.flatMap f := by
  intro l
  induction l with
  | nil => intro acc; simp
  | cons x xs ih =>
    intro acc
    rw [List.foldl_cons, ih, hstep, List.flatMap_cons, List.append_assoc]

theorem flatMap_if_singleton {α β : Type} (P : α → Prop) [DecidablePred P] (g : α → β)
    (l : List α) :
    (l.flatMap fun x => if P x then [g x] else [])
      = (l.filter fun x => decide (P x)).map g := by
  induction l with
  | nil => rfl
  | cons x xs ih =>
    by_cases hx : P x <;> simp [hx, ih]

/-- The nested accumulating loops of `find_duplicates` compute, bucket by
bucket, the concatenation of the per-bucket groups. -/
theorem find_duplicates_eq (H : HashModel) (fs : FS) (size_map : List (Nat × List String)) :
    find_duplicates H fs size_map
      = (size_map.filter fun b => 1 < b.2.length).flatMap fun b =>
          bucketGroups H fs b.2 := by
  have inner : ∀ (l : List (String × List String)) (acc : List (List String)),
      l.foldl (fun dg2 fb => if 2 ≤ fb.2.length then dg2 ++ [fb.2] else dg2) acc
        = acc ++ (l.filter fun fb => 2 ≤ fb.2.length).map Prod.snd := by
    intro l acc
    have h := foldl_eq_append_flatMap
      (fun dg2 (fb : String × List String) =>
        if 2 ≤ fb.2.length then dg2 ++ [fb.2] else dg2)
      (fun fb => if 2 ≤ fb.2.length then [fb.2] else [])
      (fun acc fb => by by_cases h2 : 2 ≤ fb.2.length <;> simp [h2]) l acc
    rw [h, flatMap_if_singleton]
  have middle : ∀ (paths : List String) (acc : List (List String)),
      (buildHashMap (partial_hash H fs) paths).foldl
        (fun dg pb =>
          if pb.2.length < 2 then dg
          else (buildHashMap (full_hash H fs) pb.2).foldl
            (fun dg2 fb => if 2 ≤ fb.2.length then dg2 ++ [fb.2] else dg2) dg)
        acc
      = acc ++ bucketGroups H fs paths := by
    intro paths acc
    have h := foldl_eq_append_flatMap
      (fun dg (pb : String × List String) =>
        if pb.2.length < 2 then dg
        else (buildHashMap (full_hash H fs) pb.2).foldl
          (fun dg2 fb => if 2 ≤ fb.2.length then dg2 ++ [fb.2] else dg2) dg)
      (fun pb =>
        if pb.2.length < 2 then []
        else ((buildHashMap (full_hash H fs) pb.2).filter fun fb => 2 ≤ fb.2.length).map
          Prod.snd)
      (fun acc pb => by
        by_cases hlen : pb.2.length < 2
        · simp [hlen]
        · simp only [hlen, if_false]
          exact inner _ acc)
      (buildHashMap (partial_hash H fs) paths) acc
    rw [h]
    rfl
  have outer := foldl_eq_append_flatMap
    (fun dupGroups (b : Nat × List String) =>
      (buildHashMap (partial_hash H fs) b.2).foldl
        (fun dg pb =>
          if pb.2.length < 2 then dg
          else (buildHashMap (full_hash H fs) pb.2).foldl
            (fun dg2 fb => if 2 ≤ fb.2.length then dg2 ++ [fb.2] else dg2) dg)
        dupGroups)
    (fun b => bucketGroups H fs b.2)
    (fun acc b => middle b.2 acc)
    (size_map.filter fun b => 1 < b.2.length) []
  simpa [find_duplicates] using outer

/-- The sort key of `pick_keeper`, `key=lambda p: (len(p), p)`: shorter
path first, ties broken by code-point lexicographic order on the path
(Python tuple and `str` comparison). -/
def keeperKeyLe (p q : String) : Prop :=
  p.length < q.length ∨ (p.length = q.length ∧ p ≤ q)

instance : DecidableRel keeperKeyLe := fun p q =>
  inferInstanceAs (Decidable (_ ∨ _))

instance : IsTotal String keeperKeyLe where
  total p q := by
    rcases Nat.lt_trichotomy p.length q.length with h | h | h
    · exact Or.inl (Or.inl h)
    · rcases le_total p q with h2 | h2
      · exact Or.inl (Or.inr ⟨h, h2⟩)
      · exact Or.inr (Or.inr ⟨h.symm, h2⟩)
    · exact Or.inr (Or.inl h)

instance : IsTrans String keeperKeyLe where
  trans p q r hpq hqr := by
    rcases hpq with h1 | ⟨h1, h1le⟩ <;> rcases hqr with h2 | ⟨h2, h2le⟩
    · exact Or.inl (h1.trans h2)
    · exact Or.inl (h2 ▸ h1)
    · exact Or.inl (h1 ▸ h2)
    · exact Or.inr ⟨h1.trans h2, h1le.trans h2le⟩

instance : IsAntisymm String keeperKeyLe where
  antisymm p q hpq hqp := by
    rcases hpq with h1 | ⟨h1, h1le⟩ <;> rcases hqp with h2 | ⟨h2, h2le⟩
    · exact absurd (h1.trans h2) (lt_irrefl _)
    · exact absurd h1 (h2 ▸ lt_irrefl _)
    · exact absurd h2 (h1 ▸ lt_irrefl _)
    · exact le_antisymm h1le h2le

/-- `pick_keeper(group)` (source lines 125–131): sort by `(len(p), p)`;
the first element is kept, the rest are movers.  Python's stable sort and
this insertion sort can only differ on elements with equal keys, and an
equal key forces equal strings (`keeperKeyLe` is antisymmetric), so the
sorted lists coincide.  `group_sorted[0]` raises `IndexError` on an empty
group; the model totalises that case with `""` (every claim below is
about non-empty groups). -/
def pick_keeper (group : List String) : String × List String :=
  let group_sorted := group.insertionSort keeperKeyLe
  (group_sorted.headD "", group_sorted.tail)

/-- Report actions (the `action` CSV column). -/
inductive Action where
  | KEEP
  | WOULD_MOVE
  | MOVED
  | ERROR
deriving DecidableEq, Repr

/-- One body row of the CSV report: `[gid, action, original_path,
destination, size_bytes]` (the constant header row is not modeled). -/
structure Row where
  gid : Nat
  action : Action
  original_path : String
  destination : String
  size_bytes : Nat
deriving DecidableEq, Repr

/-- External collaborators of `move_duplicates`: `getSizeRes p` is
`os.path.getsize(p)` (`none` when it raises a caught `OSError` /
`PermissionError`); `relpath` and `join` are `os.path.relpath` /
`os.path.join` as pure string functions; `moveFail src dst` is the
combined outcome of `os.makedirs(os.path.dirname(dst), exist_ok=True)`
and `shutil.move(src, dst)` — `none` on success, `some msg` when a caught
failure with message `str(e) = msg` occurs. -/
structure MoveEnv where
  getSizeRes : String → Option Nat
  relpath : String → String → String
  join : String → String → String
  moveFail : String → String → Option String

/-- The literal second argument of `os.path.relpath` on source line 158:
the Python string `"C:\\"`, i.e. `C:` followed by one backslash. -/
def winCRoot : String := "C:\\"

/-- Python `enumerate(l, n)`. -/
def enumerate1 {α : Type} : Nat → List α → List (Nat × α)
  | _, [] => []
  | n, g :: gs => (n, g) :: enumerate1 (n + 1) gs

/-- One iteration of the mover loop (source lines 156–173); the running
state is `(rows written so far, moved, freed_bytes)`. -/
def moverStep (env : MoveEnv) (dest_root : String) (dry_run : Bool) (gid file_size : Nat)
    (st : List Row × Nat × Nat) (src : String) : List Row × Nat × Nat :=
  let rel := env.relpath src winCRoot
  let dst := env.join dest_root rel
  if dry_run then
    (st.1 ++ [⟨gid, Action.WOULD_MOVE, src, dst, file_size⟩], st.2.1, st.2.2)
  else
    match env.moveFail src dst with
    | none =>
      (st.1 ++ [⟨gid, Action.MOVED, src, dst, file_size⟩], st.2.1 + 1, st.2.2 + file_size)
    | some e => (st.1 ++ [⟨gid, Action.ERROR, src, e, file_size⟩], st.2.1, st.2.2)

/-- One iteration of the group loop (source lines 146–173): pick the
keeper, re-stat it — on failure `continue`, skipping the whole group —
otherwise write the KEEP row and run the mover loop. -/
def groupStep (env : MoveEnv) (dest_root : String) (dry_run : Bool)
    (st : List Row × Nat × Nat) (gg : Nat × List String) : List Row × Nat × Nat :=
  match env.getSizeRes (pick_keeper gg.2).1 with
  | none => st
  | some file_size =>
    (pick_keeper gg.2).2.foldl (moverStep env dest_root dry_run gg.1 file_size)
      (st.1 ++ [⟨gg.1, Action.KEEP, (pick_keeper gg.2).1, "", file_size⟩], st.2.1, st.2.2)

/-- `move_duplicates(duplicate_groups, dest_root, dry_run)` (source lines
133–178): the CSV body rows plus the final `moved` / `freed_bytes`
counters.  Pure-I/O glue (timestamped report path, logging) is
not modeled. -/
def move_duplicates (env : MoveEnv) (duplicate_groups : List (List String))
    (dest_root : String) (dry_run : Bool) : List Row × Nat × Nat :=
  (enumerate1 1 duplicate_groups).foldl (groupStep env dest_root dry_run) ([], 0, 0)

/-- The single row the mover loop writes for one mover. -/
def moverRow (env : MoveEnv) (dest_root : String) (dry_run : Bool) (gid file_size : Nat)
    (src : String) : Row :=
  let dst := env.join dest_root (env.relpath src winCRoot)
  if dry_run then ⟨gid, Action.WOULD_MOVE, src, dst, file_size⟩
  else
    match env.moveFail src dst with
    | none => ⟨gid, Action.MOVED, src, dst, file_size⟩
    | some e => ⟨gid, Action.ERROR, src, e, file_size⟩

/-- All rows one (numbered) group contributes to the report. -/
def groupRows (env : MoveEnv) (dest_root : String) (dry_run : Bool)
    (gg : Nat × List String) : List Row :=
  match env.getSizeRes (pick_keeper gg.2).1 with
  | none => []
  | some file_size =>
    ⟨gg.1, Action.KEEP, (pick_keeper gg.2).1, "", file_size⟩ ::
      (pick_keeper gg.2).2.map (moverRow env dest_root dry_run gg.1 file_size)

theorem moverStep_fst (env : MoveEnv) (dest_root : String) (dry_run : Bool)
    (gid file_size : Nat) (st : List Row × Nat × Nat) (src : String) :
    (moverStep env dest_root dry_run gid file_size st src).1
      = st.1 ++ [moverRow env dest_root dry_run gid file_size src] := by
  unfold moverStep moverRow
  by_cases hd : dry_run
  · simp [hd]
  · simp only [hd, if_false]
    cases env.moveFail src (env.join dest_root (env.relpath src winCRoot)) <;> simp

theorem moverFold_fst (env : MoveEnv) (dest_root : String) (dry_run : Bool)
    (gid file_size : Nat) (movers : List String) :
    ∀ st : List Row × Nat × Nat,
      (movers.foldl (moverStep env dest_root dry_run gid file_size) st).1
        = st.1 ++ movers.map (moverRow env dest_root dry_run gid file_size) := by
  induction movers with
  | nil => intro st; simp
  | cons src rest ih =>
    intro st
    rw [List.foldl_cons, ih, moverStep_fst]
    simp

theorem groupStep_fst (env : MoveEnv) (dest_root : String) (dry_run : Bool)
    (st : List Row × Nat × Nat) (gg : Nat × List String) :
    (groupStep env dest_root dry_run st gg).1
      = st.1 ++ groupRows env dest_root dry_run gg := by
  unfold groupStep groupRows
  cases env.getSizeRes (pick_keeper gg.2).1 with
  | none => simp
  | some file_size => rw [moverFold_fst]; simp

/-- The report body is the concatenation of the per-group rows: the group
loop only ever appends, so the outcome of one file operation cannot alter
any other row. -/
theorem move_duplicates_rows (env : MoveEnv) (duplicate_groups : List (List String))
    (dest_root : String) (dry_run : Bool) :
    (move_duplicates env duplicate_groups dest_root dry_run).1
      = (enumerate1 1 duplicate_groups).flatMap (groupRows env dest_root dry_run) := by
  suffices H : ∀ (l : List (Nat × List String)) (st : List Row × Nat × Nat),
      (l.foldl (groupStep env dest_root dry_run) st).1
        = st.1 ++ l.flatMap (groupRows env dest_root dry_run) by
    simpa [move_duplicates] using H (enumerate1 1 duplicate_groups) ([], 0, 0)
  intro l
  induction l with
  | nil => intro st; simp
  | cons gg rest ih =>
    intro st
    rw [List.foldl_cons, ih, groupStep_fst, List.flatMap_cons, List.append_assoc]

theorem le_fst_of_mem_enumerate1 {α : Type} {n : Nat} {l : List α} {e : Nat × α}
    (he : e ∈ enumerate1 n l) : n ≤ e.1 := by
  induction l generalizing n with
  | nil => simp [enumerate1] at he
  | cons x xs ih =>
    rcases List.mem_cons.mp (by simpa [enumerate1] using he) with h | h
    · rw [h]
    · exact Nat.le_of_succ_le (ih h)

/-- A group id determines the group: ids issued by `enumerate(_, 1)` are
strictly increasing. -/
theorem enumerate1_snd_unique {α : Type} {n : Nat} {l : List α} {i : Nat} {g₁ g₂ : α}
    (h₁ : (i, g₁) ∈ enumerate1 n l) (h₂ : (i, g₂) ∈ enumerate1 n l) : g₁ = g₂ := by
  induction l generalizing n with
  | nil => simp [enumerate1] at h₁
  | cons x xs ih =>
    have h₁x : i = n ∧ g₁ = x ∨ (i, g₁) ∈ enumerate1 (n + 1) xs := by
      simpa [enumerate1] using h₁
    have h₂x : i = n ∧ g₂ = x ∨ (i, g₂) ∈ enumerate1 (n + 1) xs := by
      simpa [enumerate1] using h₂
    rcases h₁x with ⟨hi1, hg1⟩ | ha <;> rcases h₂x with ⟨hi2, hg2⟩ | hb
    · rw [hg1, hg2]
    · have hle : n + 1 ≤ i := le_fst_of_mem_enumerate1 hb
      omega
    · have hle : n + 1 ≤ i := le_fst_of_mem_enumerate1 ha
      omega
    · exact ih ha hb

/-- The exact sequence of arguments passed to `full_hash` during one run
of `find_duplicates` (source lines 110–115): for each surviving size
bucket, for each partial-hash bucket with at least two members, every
member in order. -/
def fullHashCalls (H : HashModel) (fs : FS) (size_map : List (Nat × List String)) :
    List String :=
  (size_map.filter fun b => 1 < b.2.length).flatMap fun b =>
    (buildHashMap (partial_hash H fs) b.2).flatMap fun pb =>
      if pb.2.length < 2 then [] else pb.2

theorem flatten_sublist_of_sublist {α : Type} {l₁ l₂ : List (List α)} (h : l₁.Sublist l₂) :
    l₁.flatten.Sublist l₂.flatten := by
  induction h with
  | slnil => exact List.Sublist.refl _
  | cons a h ih => exact ih.trans (List.sublist_append_right a _)
  | cons₂ a h ih => simpa using List.Sublist.append (List.Sublist.refl a) ih

/-- Across all of one run's partial- (or full-) hash buckets, a path is
stored no more often than it occurs in the input list. -/
theorem count_flattenVals_le (h : String → String) (paths : List String) (p : String) :
    (flattenVals (buildHashMap h paths)).count p ≤ paths.count p := by
  rw [(flattenVals_buildHashMap h paths).count_eq]
  exact (List.filter_sublist paths).count_le p

theorem count_flatMap {α : Type} (f : α → List String) (l : List α) (p : String) :
    ((l.flatMap f).count p) = (l.map fun a => (f a).count p).sum := by
  induction l with
  | nil => rfl
  | cons a xs ih => simp [List.flatMap_cons, List.count_append, ih]

theorem count_flatten_flatMap {α : Type} (f : α → List (List String)) (l : List α)
    (p : String) :
    ((l.flatMap f).flatten.count p) = (l.map fun a => ((f a).flatten.count p)).sum := by
  induction l with
  | nil => rfl
  | cons a xs ih => simp [List.flatMap_cons, List.flatten_append, List.count_append, ih]

/-- A path occurs in the groups emitted for one size bucket no more often
than it occurs in the bucket. -/
theorem count_bucketGroups_le (H : HashModel) (fs : FS) (paths : List String) (p : String) :
    (bucketGroups H fs paths).flatten.count p ≤ paths.count p := by
  unfold bucketGroups
  rw [count_flatten_flatMap]
  have hterm : ∀ pb ∈ buildHashMap (partial_hash H fs) paths,
      ((if pb.2.length < 2 then ([] : List (List String))
        else ((buildHashMap (full_hash H fs) pb.2).filter fun fb => 2 ≤ fb.2.length).map
          Prod.snd).flatten.count p)
        ≤ pb.2.count p := by
    intro pb _
    by_cases hlen : pb.2.length < 2
    · simp [hlen]
    · simp only [hlen, if_false]
      have h1 : (((buildHashMap (full_hash H fs) pb.2).filter fun fb =>
            2 ≤ fb.2.length).map Prod.snd).Sublist
          ((buildHashMap (full_hash H fs) pb.2).map Prod.snd) :=
        List.Sublist.map Prod.snd (List.filter_sublist _)
      exact ((flatten_sublist_of_sublist h1).count_le p).trans
        (count_flattenVals_le (full_hash H fs) pb.2 p)
  have hsum := List.sum_le_sum hterm
  have heq : ((buildHashMap (partial_hash H fs) paths).map fun pb => pb.2.count p).sum
      = (flattenVals (buildHashMap (partial_hash H fs) paths)).count p := by
    simp only [flattenVals, List.count_flatten, List.map_map]
    rfl
  exact le_trans hsum (le_trans (le_of_eq heq)
    (count_flattenVals_le (partial_hash H fs) paths p))

/-- A path occurs across all emitted duplicate groups no more often than
it occurs across all buckets of the input size map. -/
theorem count_find_duplicates_le (H : HashModel) (fs : FS)
    (size_map : List (Nat × List String)) (p : String) :
    (find_duplicates H fs size_map).flatten.count p
      ≤ ((size_map.map Prod.snd).flatten).count p := by
  rw [find_duplicates_eq, count_flatten_flatMap]
  have hsum := List.sum_le_sum
    (fun (b : Nat × List String) (_ : b ∈ size_map.filter fun b => 1 < b.2.length) =>
      count_bucketGroups_le H fs b.2 p)
  refine le_trans hsum ?_
  have heq : (((size_map.filter fun b => 1 < b.2.length).map fun b => b.2.count p)).sum
      = (((size_map.filter fun b => 1 < b.2.length).map Prod.snd).flatten).count p := by
    simp only [List.count_flatten, List.map_map]
    rfl
  rw [heq]
  exact (flatten_sublist_of_sublist
    (List.Sublist.map Prod.snd (List.filter_sublist size_map))).count_le p

/-- `full_hash` is invoked on a path no more often than the path occurs
across all buckets of the input size map. -/
theorem count_fullHashCalls_le (H : HashModel) (fs : FS)
    (size_map : List (Nat × List String)) (p : String) :
    (fullHashCalls H fs size_map).count p ≤ ((size_map.map Prod.snd).flatten).count p := by
  unfold fullHashCalls
  rw [count_flatMap]
  have hterm : ∀ b ∈ size_map.filter fun b => 1 < b.2.length,
      (((buildHashMap (partial_hash H fs) b.2).flatMap fun pb =>
        if pb.2.length < 2 then [] else pb.2).count p) ≤ b.2.count p := by
    intro b _
    rw [count_flatMap]
    have hpb : ∀ pb ∈ buildHashMap (partial_hash H fs) b.2,
        ((if pb.2.length < 2 then ([] : List String) else pb.2).count p) ≤ pb.2.count p := by
      intro pb _
      by_cases hlen : pb.2.length < 2 <;> simp [hlen]
    refine le_trans (List.sum_le_sum hpb) (le_trans (le_of_eq ?_)
      (count_flattenVals_le (partial_hash H fs) b.2 p))
    simp only [flattenVals, List.count_flatten, List.map_map]
    rfl
  refine le_trans (List.sum_le_sum hterm) ?_
  have heq : (((size_map.filter fun b => 1 < b.2.length).map fun b => b.2.count p)).sum
      = (((size_map.filter fun b => 1 < b.2.length).map Prod.snd).flatten).count p := by
    simp only [List.count_flatten, List.map_map]
    rfl
  rw [heq]
  exact (flatten_sublist_of_sublist
    (List.Sublist.map Prod.snd (List.filter_sublist size_map))).count_le p

/-- Every group contributed by one bucket has ≥ 2 members, a common
non-empty full digest, and members drawn from that bucket. -/
theorem mem_bucketGroups {H : HashModel} {fs : FS} {paths : List String} {g : List String}
    (hg : g ∈ bucketGroups H fs paths) :
    2 ≤ g.length
      ∧ (∃ fh, fh ≠ "" ∧ ∀ p ∈ g, full_hash H fs p = fh)
      ∧ ∀ p ∈ g, p ∈ paths := by
  unfold bucketGroups at hg
  rcases List.mem_flatMap.mp hg with ⟨pb, hpb, hgin⟩
  by_cases hlen : pb.2.length < 2
  · simp [hlen] at hgin
  · simp only [hlen, if_false] at hgin
    rcases List.mem_map.mp hgin with ⟨fb, hfb, hfbg⟩
    have hfb2 := List.mem_filter.mp hfb
    obtain ⟨hkey, hval, hall⟩ := entry_buildHashMap (full_hash H fs) pb.2
      (show (fb.1, fb.2) ∈ _ from hfb2.1)
    obtain ⟨_, hpval, hpall⟩ := entry_buildHashMap (partial_hash H fs) paths
      (show (pb.1, pb.2) ∈ _ from hpb)
    refine ⟨?_, ⟨fb.1, hkey, ?_⟩, ?_⟩
    · rw [← hfbg]; simpa using hfb2.2
    · intro p hp; rw [← hfbg] at hp; exact hall p hp
    · intro p hp
      rw [← hfbg] at hp
      have hp2 : p ∈ pb.2 := by
        rw [hval] at hp
        exact (List.mem_filter.mp hp).1
      rw [hpval] at hp2
      exact (List.mem_filter.mp hp2).1

/-- In an association list with pairwise-distinct keys, two entries with
the same key are the same entry. -/
theorem eq_of_mem_of_keysNodup {α β : Type} {m : List (α × β)} {e₁ e₂ : α × β}
    (hnd : (m.map Prod.fst).Nodup) (h₁ : e₁ ∈ m) (h₂ : e₂ ∈ m) (hk : e₁.1 = e₂.1) :
    e₁ = e₂ := by
  induction m with
  | nil => simp at h₁
  | cons e rest ih =>
    simp only [List.map_cons, List.nodup_cons] at hnd
    rcases List.mem_cons.mp h₁ with ha | ha <;> rcases List.mem_cons.mp h₂ with hb | hb
    · rw [ha, hb]
    · exfalso
      apply hnd.1
      rw [ha] at hk
      rw [hk]
      exact List.mem_map_of_mem Prod.fst hb
    · exfalso
      apply hnd.1
      rw [hb] at hk
      rw [← hk]
      exact List.mem_map_of_mem Prod.fst ha
    · exact ih hnd.2 ha hb

theorem one_lt_length_of_two_mem {l : List String} {p q : String} (hp : p ∈ l) (hq : q ∈ l)
    (hne : p ≠ q) : 1 < l.length := by
  cases l with
  | nil => simp at hp
  | cons x xs =>
    cases xs with
    | nil =>
      simp only [List.mem_singleton] at hp hq
      exact absurd (hp.trans hq.symm) hne
    | cons y ys => simp only [List.length_cons]; omega

/-- The input size map is keyed the way `scan_files` keys it: every bucket
key is its members' actual file size. -/
def sizeConsistent (fs : FS) (size_map : List (Nat × List String)) : Prop :=
  ∀ b ∈ size_map, ∀ p ∈ b.2, (fs.content p).length = b.1

/-- A concrete hash model for evaluating the development on closed
inputs (any function of the hashed bytes is a faithful instance). -/
def testHash : HashModel :=
  ⟨fun bytes => bytes.foldl (fun a b => a * 256 + b + 1) 0,
   fun bytes => bytes.foldl (fun a b => a * 512 + b + 7) 3⟩

/-- A filesystem where every path holds the single byte `1` and every
read succeeds. -/
def fsAll : FS := ⟨fun _ => [1], fun _ => true, fun _ => true⟩

/-- A filesystem where every path holds the single byte `5` and only the
path `"x"` is unreadable. -/
def fs6 : FS := ⟨fun _ => [5], fun p => !(p == "x"), fun p => !(p == "x")⟩

/-- **C1**: every `DuplicateGroup` emitted by `find_duplicates` has at
least 2 members, all members have equal full-content digests (so no
group with differing full digests is ever emitted), and all members were
drawn from a single size bucket — hence, whenever the input size map is
keyed by actual file size, all members have equal size. -/
theorem find_duplicates_sound (H : HashModel) (fs : FS)
    (size_map : List (Nat × List String)) (g : List String)
    (hg : g ∈ find_duplicates H fs size_map) :
    2 ≤ g.length
      ∧ (∀ p ∈ g, ∀ q ∈ g, full_hash H fs p = full_hash H fs q)
      ∧ ∃ b ∈ size_map, (∀ p ∈ g, p ∈ b.2)
        ∧ (sizeConsistent fs size_map →
            ∀ p ∈ g, ∀ q ∈ g, (fs.content p).length = (fs.content q).length) := by
  rw [find_duplicates_eq] at hg
  rcases List.mem_flatMap.mp hg with ⟨b, hb, hgb⟩
  have hbm : b ∈ size_map := (List.mem_filter.mp hb).1
  obtain ⟨hlen, ⟨fh, _, hfh⟩, hsub⟩ := mem_bucketGroups hgb
  refine ⟨hlen, ?_, b, hbm, hsub, ?_⟩
  · intro p hp q hq
    rw [hfh p hp, hfh q hq]
  · intro hsz p hp q hq
    rw [hsz b hbm p (hsub p hp), hsz b hbm q (hsub q hq)]

theorem find_duplicates_sound_witness :
    2 ≤ (["a", "b"] : List String).length
      ∧ (∀ p ∈ (["a", "b"] : List String), ∀ q ∈ (["a", "b"] : List String),
          full_hash testHash fsAll p = full_hash testHash fsAll q)
      ∧ ∃ b ∈ [(1, (["a", "b"] : List String))], (∀ p ∈ (["a", "b"] : List String), p ∈ b.2)
        ∧ (sizeConsistent fsAll [(1, ["a", "b"])] →
            ∀ p ∈ (["a", "b"] : List String), ∀ q ∈ (["a", "b"] : List String),
              (fsAll.content p).length = (fsAll.content q).length) :=
  find_duplicates_sound testHash fsAll [(1, ["a", "b"])] ["a", "b"] (by decide)

/-- **C2**: two distinct files present in the input size map with
identical content and identical size (the map being keyed by actual size,
with dict-unique keys), both fully readable, end up in the same emitted
`DuplicateGroup`. -/
theorem find_duplicates_complete (H : HashModel) (fs : FS)
    (size_map : List (Nat × List String)) (b₁ b₂ : Nat × List String) (p₁ p₂ : String)
    (hkeys : (size_map.map Prod.fst).Nodup)
    (hsz : sizeConsistent fs size_map)
    (hb₁ : b₁ ∈ size_map) (hb₂ : b₂ ∈ size_map)
    (hp₁ : p₁ ∈ b₁.2) (hp₂ : p₂ ∈ b₂.2)
    (hne : p₁ ≠ p₂)
    (hc : fs.content p₁ = fs.content p₂)
    (hr₁p : fs.readPartialOk p₁ = true) (hr₁f : fs.readFullOk p₁ = true)
    (hr₂p : fs.readPartialOk p₂ = true) (hr₂f : fs.readFullOk p₂ = true) :
    ∃ g ∈ find_duplicates H fs size_map, p₁ ∈ g ∧ p₂ ∈ g := by
  -- the two buckets are the same bucket
  have hkey : b₁.1 = b₂.1 := by
    have h1 := hsz b₁ hb₁ p₁ hp₁
    have h2 := hsz b₂ hb₂ p₂ hp₂
    rw [← h1, ← h2, hc]
  have hbb : b₁ = b₂ := eq_of_mem_of_keysNodup hkeys hb₁ hb₂ hkey
  subst hbb
  -- both files land in the same partial-hash bucket
  have hph : partial_hash H fs p₂ = partial_hash H fs p₁ := by
    unfold partial_hash
    rw [hr₁p, hr₂p, hc]
  have hphne : partial_hash H fs p₁ ≠ "" := by
    unfold partial_hash
    rw [hr₁p]
    simp only [if_true]
    exact hexStr_ne_empty _ (by omega)
  have hpent := mem_buildHashMap_of_mem (partial_hash H fs) hp₁ hphne
  set plist := b₁.2.filter fun q => partial_hash H fs q = partial_hash H fs p₁ with hplist
  have hp₁pl : p₁ ∈ plist := by
    rw [hplist]
    exact List.mem_filter.mpr ⟨hp₁, by simp⟩
  have hp₂pl : p₂ ∈ plist := by
    rw [hplist]
    exact List.mem_filter.mpr ⟨hp₂, by simp [hph]⟩
  -- both files land in the same full-hash bucket of that partial bucket
  have hfh : full_hash H fs p₂ = full_hash H fs p₁ := by
    unfold full_hash
    rw [hr₁f, hr₂f, hc]
  have hfhne : full_hash H fs p₁ ≠ "" := by
    unfold full_hash
    rw [hr₁f]
    simp only [if_true]
    exact hexStr_ne_empty _ (by omega)
  have hfent := mem_buildHashMap_of_mem (full_hash H fs) hp₁pl hfhne
  set flist := plist.filter fun q => full_hash H fs q = full_hash H fs p₁ with hflist
  have hp₁fl : p₁ ∈ flist := by
    rw [hflist]
    exact List.mem_filter.mpr ⟨hp₁pl, by simp⟩
  have hp₂fl : p₂ ∈ flist := by
    rw [hflist]
    exact List.mem_filter.mpr ⟨hp₂pl, by simp [hfh]⟩
  -- that full-hash bucket is emitted
  refine ⟨flist, ?_, hp₁fl, hp₂fl⟩
  rw [find_duplicates_eq]
  refine List.mem_flatMap.mpr ⟨b₁, ?_, ?_⟩
  · exact List.mem_filter.mpr ⟨hb₁, by
      simpa using one_lt_length_of_two_mem hp₁ hp₂ hne⟩
  · unfold bucketGroups
    refine List.mem_flatMap.mpr ⟨(partial_hash H fs p₁, plist), hpent, ?_⟩
    have hplen : ¬ plist.length < 2 := by
      have := one_lt_length_of_two_mem hp₁pl hp₂pl hne
      omega
    simp only [hplen, if_false]
    refine List.mem_map.mpr ⟨(full_hash H fs p₁, flist), ?_, rfl⟩
    refine List.mem_filter.mpr ⟨hfent, ?_⟩
    simpa using one_lt_length_of_two_mem hp₁fl hp₂fl hne

theorem find_duplicates_complete_witness :
    ∃ g ∈ find_duplicates testHash fsAll [(1, ["a", "b"])], "a" ∈ g ∧ "b" ∈ g :=
  find_duplicates_complete testHash fsAll [(1, ["a", "b"])] (1, ["a", "b"]) (1, ["a", "b"])
    "a" "b" (by decide) (by intro b hb p hp; fin_cases hb <;> fin_cases hp <;> rfl)
    (by decide) (by decide) (by decide) (by decide) (by decide) rfl
    rfl rfl rfl rfl

/-- **C3 counterexample**: in the input size map `{1: ["a", "a"]}` every
file path occurs in at most one bucket (there is only one bucket), yet
the output of `find_duplicates` contains the path `"a"` twice — inside
one group — so "at most once within that group" fails.  The hypothesis
has to bound occurrences, not buckets. -/
theorem no_double_counting_cex :
    (∀ p : String,
        (([(1, (["a", "a"] : List String))].filter fun b => decide (p ∈ b.2)).length ≤ 1))
      ∧ ¬ ((find_duplicates testHash fsAll [(1, ["a", "a"])]).flatten.count "a" ≤ 1) := by
  constructor
  · intro p
    exact List.length_filter_le _ _
  · decide

/-- **C3 (amended)**: strengthening the hypothesis from "each path occurs
in at most one bucket" to "each path occurs at most once across all
buckets" (which is what `scan_files` produces, every file being visited
once), every path occurs at most once across the entire output — hence
in at most one `DuplicateGroup`, and at most once within it. -/
theorem no_double_counting_amended (H : HashModel) (fs : FS)
    (size_map : List (Nat × List String))
    (hm : ∀ p : String, ((size_map.map Prod.snd).flatten.count p) ≤ 1) :
    ∀ p : String, ((find_duplicates H fs size_map).flatten.count p) ≤ 1 :=
  fun p => (count_find_duplicates_le H fs size_map p).trans (hm p)

theorem no_double_counting_amended_witness :
    ((find_duplicates testHash fsAll [(1, ["a", "b"])]).flatten.count "a") ≤ 1 :=
  no_double_counting_amended testHash fsAll [(1, ["a", "b"])]
    (fun p => List.nodup_iff_count_le_one.mp (by decide) p) "a"

/-- **C4 counterexample**: on the size map `{1: ["a", "a"]}` (one path
listed twice in one bucket) the run passes `"a"` to `full_hash` twice,
although there is no other file at all — both halves of the claim
("at most once per file" and "only for files sharing size and partial
fingerprint with at least one *other* file") need each path to occur at
most once in the input. -/
theorem full_hash_once_cex :
    (fullHashCalls testHash fsAll [(1, ["a", "a"])]).count "a" = 2
      ∧ ¬ ((fullHashCalls testHash fsAll [(1, ["a", "a"])]).count "a" ≤ 1) := by
  constructor
  · decide
  · decide

/-- **C4 (amended)**: when each path occurs at most once across the input
size map, one run of `find_duplicates` computes the full fingerprint at
most once per file, and only for files that share both their size bucket
and their non-`NONE` partial fingerprint with at least one other file. -/
theorem full_hash_once_amended (H : HashModel) (fs : FS)
    (size_map : List (Nat × List String))
    (hm : ∀ p : String, ((size_map.map Prod.snd).flatten.count p) ≤ 1) :
    (∀ p : String, (fullHashCalls H fs size_map).count p ≤ 1)
      ∧ ∀ p ∈ fullHashCalls H fs size_map,
          ∃ b ∈ size_map, p ∈ b.2
            ∧ ∃ q ∈ b.2, q ≠ p ∧ partial_hash H fs q = partial_hash H fs p
              ∧ partial_hash H fs p ≠ "" := by
  constructor
  · exact fun p => (count_fullHashCalls_le H fs size_map p).trans (hm p)
  · intro p hp
    unfold fullHashCalls at hp
    rcases List.mem_flatMap.mp hp with ⟨b, hb, hpin⟩
    rcases List.mem_flatMap.mp hpin with ⟨pb, hpb, hpif⟩
    by_cases hlen : pb.2.length < 2
    · simp [hlen] at hpif
    · simp only [hlen, if_false] at hpif
      obtain ⟨hkey, hval, hall⟩ := entry_buildHashMap (partial_hash H fs) b.2
        (show (pb.1, pb.2) ∈ _ from hpb)
      have hbm : b ∈ size_map := (List.mem_filter.mp hb).1
      have hpb2 : p ∈ b.2 := by
        have hx := hpif
        rw [hval] at hx
        exact (List.mem_filter.mp hx).1
      have hphp : partial_hash H fs p = pb.1 := hall p hpif
      have hpne : partial_hash H fs p ≠ "" := by rw [hphp]; exact hkey
      refine ⟨b, hbm, hpb2, ?_⟩
      by_contra hno
      push_neg at hno
      have hallp : ∀ q ∈ pb.2, p = q := by
        intro q hq
        by_contra hqp
        have hqb : q ∈ b.2 := by
          rw [hval] at hq
          exact (List.mem_filter.mp hq).1
        have hqph : partial_hash H fs q = partial_hash H fs p := by
          rw [hall q hq, hphp]
        exact hpne (hno q hqb (fun hh => hqp hh.symm) hqph)
      have hcnt : pb.2.count p = pb.2.length := List.count_eq_length.mpr hallp
      have h1 : pb.2.count p ≤ b.2.count p := by
        rw [hval]
        exact (List.filter_sublist _).count_le p
      have h2 : b.2.count p ≤ ((size_map.map Prod.snd).flatten).count p := by
        rw [List.count_flatten]
        refine List.single_le_sum (fun x _ => Nat.zero_le x) _ ?_
        exact List.mem_map.mpr ⟨b.2, List.mem_map_of_mem Prod.snd hbm, rfl⟩
      have h3 := hm p
      omega

theorem full_hash_once_amended_witness :
    (∀ p : String, (fullHashCalls testHash fsAll [(1, ["a", "b"])]).count p ≤ 1)
      ∧ ∀ p ∈ fullHashCalls testHash fsAll [(1, ["a", "b"])],
          ∃ b ∈ [(1, (["a", "b"] : List String))], p ∈ b.2
            ∧ ∃ q ∈ b.2, q ≠ p
              ∧ partial_hash testHash fsAll q = partial_hash testHash fsAll p
              ∧ partial_hash testHash fsAll p ≠ "" :=
  full_hash_once_amended testHash fsAll [(1, ["a", "b"])]
    (fun p => List.nodup_iff_count_le_one.mp (by decide) p)

/-- **C5**: for a non-empty group of distinct paths, `pick_keeper`
returns as keeper the member minimal under the key (path length
ascending, then path lexicographically ascending), returns the remaining
members as the movers, and returns the same keeper for every permutation
of the group. -/
theorem pick_keeper_spec (group : List String) (hne : group ≠ []) (hnd : group.Nodup) :
    (pick_keeper group).1 ∈ group
      ∧ (∀ p ∈ group, keeperKeyLe (pick_keeper group).1 p)
      ∧ ((pick_keeper group).1 :: (pick_keeper group).2).Perm group
      ∧ ∀ group₂ : List String, group.Perm group₂ →
          (pick_keeper group₂).1 = (pick_keeper group).1 := by
  have hperm := List.perm_insertionSort keeperKeyLe group
  have hsorted := List.sorted_insertionSort keeperKeyLe group
  cases hs : List.insertionSort keeperKeyLe group with
  | nil =>
    exfalso
    apply hne
    have hlen := hperm.length_eq
    rw [hs] at hlen
    cases group with
    | nil => rfl
    | cons x xs => simp at hlen
  | cons a t =>
    rw [hs] at hperm hsorted
    have hpk : pick_keeper group = (a, t) := by
      unfold pick_keeper
      rw [hs]
      rfl
    rw [hpk]
    refine ⟨?_, ?_, hperm, ?_⟩
    · exact hperm.mem_iff.mp (List.mem_cons_self a t)
    · intro p hp
      rcases List.mem_cons.mp (hperm.symm.mem_iff.mp hp) with hpa | hpt
      · rw [hpa]
        exact Or.inr ⟨rfl, le_refl a⟩
      · exact List.rel_of_sorted_cons hsorted p hpt
    · intro group₂ hp2
      have hchain : (List.insertionSort keeperKeyLe group₂).Perm (a :: t) :=
        ((List.perm_insertionSort keeperKeyLe group₂).trans hp2.symm).trans hperm.symm
      have heq := List.eq_of_perm_of_sorted hchain
        (List.sorted_insertionSort keeperKeyLe group₂) hsorted
      unfold pick_keeper
      rw [heq]
      rfl

theorem pick_keeper_spec_witness :
    (pick_keeper ["bb", "a", "ccc"]).1 ∈ (["bb", "a", "ccc"] : List String)
      ∧ (∀ p ∈ (["bb", "a", "ccc"] : List String),
          keeperKeyLe (pick_keeper ["bb", "a", "ccc"]).1 p)
      ∧ ((pick_keeper ["bb", "a", "ccc"]).1 ::
          (pick_keeper ["bb", "a", "ccc"]).2).Perm ["bb", "a", "ccc"]
      ∧ ∀ group₂ : List String, (["bb", "a", "ccc"] : List String).Perm group₂ →
          (pick_keeper group₂).1 = (pick_keeper ["bb", "a", "ccc"]).1 :=
  pick_keeper_spec ["bb", "a", "ccc"] (by decide) (by decide)

/-- When every input hashes to `hv` or fails, the dict is a single bucket
holding the non-failing inputs in input order. -/
theorem buildHashMap_const (h : String → String) (paths : List String) (hv : String)
    (hvne : hv ≠ "") (hall : ∀ p ∈ paths, h p = hv ∨ h p = "") :
    buildHashMap h paths
      = if (paths.filter fun p => decide (h p ≠ "")) = [] then []
        else [(hv, paths.filter fun p => decide (h p ≠ ""))] := by
  have aux : ∀ (ps : List String) (vs : List String), (∀ p ∈ ps, h p = hv ∨ h p = "") →
      ps.foldl (fun m p => if h p = "" then m else insertMulti m (h p) p) [(hv, vs)]
        = [(hv, vs ++ ps.filter fun p => decide (h p ≠ ""))] := by
    intro ps
    induction ps with
    | nil => intro vs _; simp
    | cons p ps ih =>
      intro vs hall2
      rcases hall2 p (List.mem_cons_self p ps) with hp | hp
      · rw [List.foldl_cons]
        have hpne : ¬ (h p = "") := by rw [hp]; exact hvne
        simp only [hpne, if_false]
        have hins : insertMulti [(hv, vs)] (h p) p = [(hv, vs ++ [p])] := by
          simp [insertMulti, hp]
        rw [hins, ih (vs ++ [p]) (fun q hq => hall2 q (List.mem_cons_of_mem p hq))]
        simp [hpne, List.append_assoc]
      · rw [List.foldl_cons]
        simp only [hp, if_true]
        rw [ih vs (fun q hq => hall2 q (List.mem_cons_of_mem p hq))]
        simp [hp]
  induction paths with
  | nil => simp [buildHashMap]
  | cons p ps ih =>
    rcases hall p (List.mem_cons_self p ps) with hp | hp
    · have hpne : ¬ (h p = "") := by rw [hp]; exact hvne
      have h1 : buildHashMap h (p :: ps)
          = ps.foldl (fun m p => if h p = "" then m else insertMulti m (h p) p)
              [(h p, [p])] := by
        unfold buildHashMap
        rw [List.foldl_cons]
        simp [hpne, insertMulti]
      rw [h1, hp, aux ps [p] (fun q hq => hall q (List.mem_cons_of_mem p hq))]
      have hfc : (p :: ps).filter (fun p => decide (h p ≠ ""))
          = p :: ps.filter (fun p => decide (h p ≠ "")) := by
        simp [List.filter_cons, hpne]
      rw [hfc]
      simp
    · have h1 : buildHashMap h (p :: ps) = buildHashMap h ps := by
        unfold buildHashMap
        rw [List.foldl_cons]
        simp [hp]
      have hfc : (p :: ps).filter (fun p => decide (h p ≠ ""))
          = ps.filter (fun p => decide (h p ≠ "")) := by
        simp [List.filter_cons, hp]
      rw [h1, hfc, ih (fun q hq => hall q (List.mem_cons_of_mem p hq))]

/-- Removing one present element from a duplicate-free list shortens it
by exactly one. -/
theorem length_filter_ne_of_nodup {l : List String} {bad : String} (hnd : l.Nodup)
    (hm : bad ∈ l) :
    (l.filter fun p => decide (p ≠ bad)).length + 1 = l.length := by
  induction l with
  | nil => simp at hm
  | cons x xs ih =>
    rw [List.nodup_cons] at hnd
    rcases List.mem_cons.mp hm with hx | hx
    · subst hx
      have hxs : xs.filter (fun q => decide (q ≠ bad)) = xs :=
        List.filter_eq_self.mpr (fun a ha => by
          have hab : a ≠ bad := fun hh => hnd.1 (hh ▸ ha)
          simpa using hab)
      simp [List.filter_cons, hxs]
      intro a ha hab
      exact hnd.1 (hab ▸ ha)
    · have hxbad : x ≠ bad := fun hh => hnd.1 (hh ▸ hx)
      have hfc : List.filter (fun p => decide (p ≠ bad)) (x :: xs)
          = x :: List.filter (fun p => decide (p ≠ bad)) xs := by
        simp [List.filter_cons, hxbad]
      rw [hfc, List.length_cons, List.length_cons, ← ih hnd.2 hx]

/-- A single size bucket in which every member either hashes to the same
partial fingerprint or fails, and every non-failing member has the same
full fingerprint, yields exactly one group: the non-failing members. -/
theorem find_duplicates_single_bucket (H : HashModel) (fs : FS) (sz : Nat)
    (paths : List String) (ph fh : String)
    (hph : ph ≠ "") (hfh : fh ≠ "")
    (hallp : ∀ p ∈ paths, partial_hash H fs p = ph ∨ partial_hash H fs p = "")
    (hallf : ∀ p ∈ paths, partial_hash H fs p ≠ "" → full_hash H fs p = fh)
    (hglen : 2 ≤ (paths.filter fun p => decide (partial_hash H fs p ≠ "")).length)
    (hblen : 1 < paths.length) :
    find_duplicates H fs [(sz, paths)]
      = [paths.filter fun p => decide (partial_hash H fs p ≠ "")] := by
  rw [find_duplicates_eq]
  have hfilter : ([(sz, paths)].filter fun b => 1 < b.2.length) = [(sz, paths)] := by
    simp [hblen]
  rw [hfilter]
  simp only [List.flatMap_cons, List.flatMap_nil, List.append_nil]
  unfold bucketGroups
  have hgne : (paths.filter fun p => decide (partial_hash H fs p ≠ "")) ≠ [] := by
    intro hnil
    rw [hnil] at hglen
    simp at hglen
  have hpm : buildHashMap (partial_hash H fs) paths
      = [(ph, paths.filter fun p => decide (partial_hash H fs p ≠ ""))] := by
    rw [buildHashMap_const (partial_hash H fs) paths ph hph hallp]
    rw [if_neg hgne]
  rw [hpm]
  simp only [List.flatMap_cons, List.flatMap_nil, List.append_nil]
  have hgl : ¬ (paths.filter fun p => decide (partial_hash H fs p ≠ "")).length < 2 := by
    omega
  simp only [hgl, if_false]
  have hmemgood : ∀ p ∈ paths.filter (fun p => decide (partial_hash H fs p ≠ "")),
      full_hash H fs p = fh := by
    intro p hp
    have hp2 := List.mem_filter.mp hp
    exact hallf p hp2.1 (by simpa using hp2.2)
  have hfm : buildHashMap (full_hash H fs)
        (paths.filter fun p => decide (partial_hash H fs p ≠ ""))
      = [(fh, paths.filter fun p => decide (partial_hash H fs p ≠ ""))] := by
    rw [buildHashMap_const (full_hash H fs) _ fh hfh
      (fun p hp => Or.inl (hmemgood p hp))]
    have hff : ((paths.filter fun p => decide (partial_hash H fs p ≠ "")).filter
          fun p => decide (full_hash H fs p ≠ ""))
        = paths.filter fun p => decide (partial_hash H fs p ≠ "") :=
      List.filter_eq_self.mpr (fun p hp => by simp [hmemgood p hp, hfh])
    rw [hff]
    rw [if_neg hgne]
  rw [hfm]
  have hkeep : List.filter (fun fb => decide (2 ≤ fb.2.length))
        [(fh, paths.filter fun p => decide (partial_hash H fs p ≠ ""))]
      = [(fh, paths.filter fun p => decide (partial_hash H fs p ≠ ""))] :=
    List.filter_eq_self.mpr (fun a ha => by
      rw [List.mem_singleton] at ha
      rw [ha]
      simpa using hglen)
  rw [hkeep]
  rfl

/-- **C6**: a size bucket of `N ≥ 3` files of identical content of which
exactly one is unreadable (its partial fingerprint is the `""` failure
value) loses only that file: the remaining `N−1 ≥ 2` files form exactly
one emitted `DuplicateGroup`, and the run completes normally (the
embedding is a total function, mirroring the caught-and-absorbed
per-file exceptions). -/
theorem partial_failure_isolation (H : HashModel) (fs : FS) (sz : Nat)
    (paths : List String) (bad : String) (c : List Nat)
    (hmem : bad ∈ paths)
    (hbad : fs.readPartialOk bad = false)
    (hgood : ∀ p ∈ paths, p ≠ bad → fs.readPartialOk p = true ∧ fs.readFullOk p = true)
    (hcontent : ∀ p ∈ paths, fs.content p = c)
    (hnd : paths.Nodup)
    (hN : 3 ≤ paths.length) :
    find_duplicates H fs [(sz, paths)] = [paths.filter fun p => decide (p ≠ bad)] := by
  have hphbad : partial_hash H fs bad = "" := by
    unfold partial_hash
    simp [hbad]
  have hphp : ∀ p ∈ paths, p ≠ bad → partial_hash H fs p = hexStr 32 (H.md5 (c.take 8192)) := by
    intro p hp hpb
    unfold partial_hash
    rw [hcontent p hp]
    simp [(hgood p hp hpb).1]
  have hfz : ∀ p ∈ paths, p ≠ bad → full_hash H fs p = hexStr 64 (H.sha256 c) := by
    intro p hp hpb
    unfold full_hash
    rw [hcontent p hp]
    simp [(hgood p hp hpb).2]
  have hcong : (paths.filter fun p => decide (partial_hash H fs p ≠ ""))
      = paths.filter fun p => decide (p ≠ bad) := by
    apply List.filter_congr
    intro p hp
    by_cases hpb : p = bad
    · subst hpb
      simp [hphbad]
    · simp [hphp p hp hpb, hexStr_ne_empty _ (by omega : 0 < 32), hpb]
  have hlen1 : (paths.filter fun p => decide (p ≠ bad)).length + 1 = paths.length :=
    length_filter_ne_of_nodup hnd hmem
  have hres := find_duplicates_single_bucket H fs sz paths
    (hexStr 32 (H.md5 (c.take 8192))) (hexStr 64 (H.sha256 c))
    (hexStr_ne_empty _ (by omega)) (hexStr_ne_empty _ (by omega))
    (fun p hp => by
      by_cases hpb : p = bad
      · exact Or.inr (hpb ▸ hphbad)
      · exact Or.inl (hphp p hp hpb))
    (fun p hp hpne => by
      have hpb : p ≠ bad := fun hh => hpne (hh ▸ hphbad)
      exact hfz p hp hpb)
    (by rw [hcong]; omega)
    (by omega)
  rw [hres, hcong]

theorem partial_failure_isolation_witness :
    find_duplicates testHash fs6 [(1, ["x", "aa", "bbb"])]
      = [(["x", "aa", "bbb"] : List String).filter fun p => decide (p ≠ "x")] :=
  partial_failure_isolation testHash fs6 1 ["x", "aa", "bbb"] "x" [5]
    (by decide) (by decide) (by decide) (by decide) (by decide) (by decide)

theorem countP_flatMap {α β : Type} (pr : β → Bool) (f : α → List β) (l : List α) :
    ((l.flatMap f).countP pr) = (l.map fun x => (f x).countP pr).sum := by
  induction l with
  | nil => rfl
  | cons a xs ih => simp [List.flatMap_cons, List.countP_append, ih]

theorem sum_map_eq_zero {α : Type} {l : List α} {f : α → Nat}
    (h : ∀ y ∈ l, f y = 0) : (l.map f).sum = 0 := by
  induction l with
  | nil => rfl
  | cons z zs ih =>
    simp [h z (List.mem_cons_self z zs), ih (fun y hy => h y (List.mem_cons_of_mem _ hy))]

/-- A sum over a list is 1 when exactly one element (present exactly
once) contributes 1 and every other element contributes 0. -/
theorem sum_map_eq_one {α : Type} [DecidableEq α] (l : List α) (f : α → Nat) (x : α)
    (hcount : l.count x = 1) (hfx : f x = 1) (hother : ∀ y ∈ l, y ≠ x → f y = 0) :
    (l.map f).sum = 1 := by
  induction l with
  | nil => simp at hcount
  | cons z zs ih =>
    by_cases hz : z = x
    · subst hz
      have hzero : zs.count z = 0 := by
        rw [List.count_cons] at hcount
        simpa using hcount
      have hnot : z ∉ zs := List.count_eq_zero.mp hzero
      have hrest : (zs.map f).sum = 0 :=
        sum_map_eq_zero (fun y hy =>
          hother y (List.mem_cons_of_mem _ hy) (fun hyx => hnot (hyx ▸ hy)))
      simp [hfx, hrest]
    · have hz0 : f z = 0 := hother z (List.mem_cons_self z zs) hz
      have hcount2 : zs.count x = 1 := by
        rw [List.count_cons] at hcount
        have : (z == x) = false := by simpa using hz
        simpa [this] using hcount
      simp [hz0, ih hcount2 (fun y hy hyx => hother y (List.mem_cons_of_mem _ hy) hyx)]

theorem enumerate1_fst_nodup {α : Type} (n : Nat) (l : List α) :
    ((enumerate1 n l).map Prod.fst).Nodup := by
  induction l generalizing n with
  | nil => simp [enumerate1]
  | cons x xs ih =>
    simp only [enumerate1, List.map_cons, List.nodup_cons]
    refine ⟨?_, ih (n + 1)⟩
    intro hmem
    rcases List.mem_map.mp hmem with ⟨e, he, hfst⟩
    have hle := le_fst_of_mem_enumerate1 he
    omega

theorem enumerate1_nodup {α : Type} (n : Nat) (l : List α) : (enumerate1 n l).Nodup :=
  List.Nodup.of_map Prod.fst (enumerate1_fst_nodup n l)

theorem moverRow_fields (env : MoveEnv) (dest_root : String) (dry_run : Bool)
    (gid file_size : Nat) (src : String) :
    (moverRow env dest_root dry_run gid file_size src).gid = gid
      ∧ (moverRow env dest_root dry_run gid file_size src).original_path = src
      ∧ ((moverRow env dest_root dry_run gid file_size src).action = Action.WOULD_MOVE
          ∨ (moverRow env dest_root dry_run gid file_size src).action = Action.MOVED
          ∨ (moverRow env dest_root dry_run gid file_size src).action = Action.ERROR) := by
  unfold moverRow
  by_cases hd : dry_run
  · simp [hd]
  · simp only [hd, if_false]
    cases env.moveFail src (env.join dest_root (env.relpath src winCRoot)) <;> simp

theorem moverRow_live_action (env : MoveEnv) (dest_root : String) (gid file_size : Nat)
    (src : String) :
    (moverRow env dest_root false gid file_size src).action = Action.MOVED
      ∨ (moverRow env dest_root false gid file_size src).action = Action.ERROR := by
  unfold moverRow
  cases hmf : env.moveFail src (env.join dest_root (env.relpath src winCRoot)) <;>
    simp [hmf]

theorem groupRows_gid (env : MoveEnv) (dest_root : String) (dry_run : Bool)
    (gg : Nat × List String) : ∀ r ∈ groupRows env dest_root dry_run gg, r.gid = gg.1 := by
  intro r hr
  unfold groupRows at hr
  cases hst : env.getSizeRes (pick_keeper gg.2).1 with
  | none => rw [hst] at hr; simp at hr
  | some file_size =>
    rw [hst] at hr
    rcases List.mem_cons.mp hr with h | h
    · rw [h]
    · rcases List.mem_map.mp h with ⟨src, _, hsrc⟩
      rw [← hsrc]
      exact (moverRow_fields env dest_root dry_run gg.1 file_size src).1

/-- A processed group's rows contain exactly one KEEP row for its id. -/
theorem groupRows_keep_count (env : MoveEnv) (dest_root : String) (dry_run : Bool)
    (gg : Nat × List String) (file_size : Nat)
    (hst : env.getSizeRes (pick_keeper gg.2).1 = some file_size) :
    ((groupRows env dest_root dry_run gg).countP
        fun r => r.gid == gg.1 && r.action == Action.KEEP) = 1 := by
  unfold groupRows
  rw [hst, List.countP_cons]
  have hmap : (((pick_keeper gg.2).2.map
        (moverRow env dest_root dry_run gg.1 file_size)).countP
      fun r => r.gid == gg.1 && r.action == Action.KEEP) = 0 := by
    rw [List.countP_eq_zero]
    intro r hr
    rcases List.mem_map.mp hr with ⟨src, _, hsrc⟩
    subst hsrc
    obtain ⟨-, -, hact⟩ := moverRow_fields env dest_root dry_run gg.1 file_size src
    simp only [Bool.and_eq_true, beq_iff_eq, not_and]
    intro _ hk
    rcases hact with h | h | h <;> exact absurd (h.symm.trans hk) (by decide)
  rw [hmap]
  simp

theorem moverRow_mem_rows (env : MoveEnv) (dest_root : String) (dry_run : Bool)
    (groups : List (List String)) (gid : Nat) (g : List String) (file_size : Nat)
    (src : String)
    (hmem : (gid, g) ∈ enumerate1 1 groups)
    (hstat : env.getSizeRes (pick_keeper g).1 = some file_size)
    (hsrc : src ∈ (pick_keeper g).2) :
    moverRow env dest_root dry_run gid file_size src
      ∈ (move_duplicates env groups dest_root dry_run).1 := by
  rw [move_duplicates_rows]
  refine List.mem_flatMap.mpr ⟨(gid, g), hmem, ?_⟩
  unfold groupRows
  rw [show env.getSizeRes (pick_keeper ((gid, g) : Nat × List String).2).1 = some file_size
    from hstat]
  exact List.mem_cons_of_mem _ (List.mem_map_of_mem _ hsrc)

/-- An environment in which re-statting any keeper fails. -/
def envBad : MoveEnv := ⟨fun _ => none, fun s _ => s, fun a b => a ++ b, fun _ _ => none⟩

/-- An environment in which every stat returns size 4 and every move
succeeds; `join a b = a ++ "/" ++ b`, `relpath s _ = s`. -/
def env7 : MoveEnv := ⟨fun _ => some 4, fun s _ => s, fun a b => a ++ "/" ++ b, fun _ _ => none⟩

/-- Like `env7`, but moving the path `"mm"` fails with message `"boom"`. -/
def env8 : MoveEnv :=
  ⟨fun _ => some 4, fun s _ => s, fun a b => a ++ "/" ++ b,
   fun src _ => if src == "mm" then some "boom" else none⟩

/-- **C7 counterexample**: when the keeper of a group cannot be re-statted
(`os.path.getsize` raises), `move_duplicates` skips the whole group with
`continue`: the plan for the non-empty group list `[["k", "mm"]]` contains
no KEEP row at all, refuting "a KEEP record appears exactly once for
*every* DuplicateGroup". -/
theorem keep_row_cex :
    (move_duplicates envBad [["k", "mm"]] "L:" true).1 = []
      ∧ ¬ (((move_duplicates envBad [["k", "mm"]] "L:" true).1.countP
            fun r => r.gid == 1 && r.action == Action.KEEP) = 1) := by
  constructor
  · decide
  · decide

/-- **C7 (amended)**: for every DuplicateGroup whose keeper re-stat
succeeds, the plan written by `move_duplicates` contains exactly one KEEP
record carrying that group's id, and one MOVE record (WOULD_MOVE, MOVED
or ERROR) for every non-keeper member; a group whose keeper cannot be
statted contributes no rows. -/
theorem keep_row_amended (env : MoveEnv) (dest_root : String) (dry_run : Bool)
    (groups : List (List String)) (gid : Nat) (g : List String) (file_size : Nat)
    (hmem : (gid, g) ∈ enumerate1 1 groups)
    (hstat : env.getSizeRes (pick_keeper g).1 = some file_size) :
    (((move_duplicates env groups dest_root dry_run).1.countP
        fun r => r.gid == gid && r.action == Action.KEEP) = 1)
      ∧ ∀ src ∈ (pick_keeper g).2,
          ∃ r ∈ (move_duplicates env groups dest_root dry_run).1,
            r.gid = gid ∧ r.original_path = src
              ∧ (r.action = Action.WOULD_MOVE ∨ r.action = Action.MOVED
                  ∨ r.action = Action.ERROR) := by
  constructor
  · rw [move_duplicates_rows, countP_flatMap]
    apply sum_map_eq_one (enumerate1 1 groups)
      (fun gg => (groupRows env dest_root dry_run gg).countP
        fun r => r.gid == gid && r.action == Action.KEEP)
      (gid, g)
    · exact List.count_eq_one_of_mem (enumerate1_nodup 1 groups) hmem
    · exact groupRows_keep_count env dest_root dry_run (gid, g) file_size hstat
    · intro y hy hyne
      rw [List.countP_eq_zero]
      intro r hr
      have hgid := groupRows_gid env dest_root dry_run y r hr
      simp only [Bool.and_eq_true, beq_iff_eq, not_and]
      intro hrg
      exfalso
      apply hyne
      have hy1 : y.1 = gid := by rw [← hgid, hrg]
      have hy' : (gid, y.2) ∈ enumerate1 1 groups := by
        rw [← hy1]
        exact hy
      have hy2 : y.2 = g := enumerate1_snd_unique hy' hmem
      exact Prod.ext hy1 hy2
  · intro src hsrc
    refine ⟨moverRow env dest_root dry_run gid file_size src,
      moverRow_mem_rows env dest_root dry_run groups gid g file_size src hmem hstat hsrc,
      ?_⟩
    obtain ⟨h1, h2, h3⟩ := moverRow_fields env dest_root dry_run gid file_size src
    exact ⟨h1, h2, h3⟩

theorem keep_row_amended_witness :
    (((move_duplicates env7 [["k", "mm"]] "L:" true).1.countP
        fun r => r.gid == 1 && r.action == Action.KEEP) = 1)
      ∧ ∀ src ∈ (pick_keeper ["k", "mm"]).2,
          ∃ r ∈ (move_duplicates env7 [["k", "mm"]] "L:" true).1,
            r.gid = 1 ∧ r.original_path = src
              ∧ (r.action = Action.WOULD_MOVE ∨ r.action = Action.MOVED
                  ∨ r.action = Action.ERROR) :=
  keep_row_amended env7 "L:" true [["k", "mm"]] 1 ["k", "mm"] 4 (by decide) rfl

/-- **C8**: in live mode, a caught failure while relocating one mover is
recorded as an ERROR row (message in the destination column), and every
mover of every processed group — in this group or any other — still
receives its own MOVED-or-ERROR row: the loop only appends rows and no
caught per-file failure unwinds the run (the embedding of the loop is a
total function whose per-mover rows are independent of each other). -/
theorem move_failure_isolation (env : MoveEnv) (dest_root : String)
    (groups : List (List String)) (gid : Nat) (g : List String) (file_size : Nat)
    (src e : String)
    (hmem : (gid, g) ∈ enumerate1 1 groups)
    (hstat : env.getSizeRes (pick_keeper g).1 = some file_size)
    (hsrc : src ∈ (pick_keeper g).2)
    (hfail : env.moveFail src (env.join dest_root (env.relpath src winCRoot)) = some e) :
    (⟨gid, Action.ERROR, src, e, file_size⟩ : Row)
        ∈ (move_duplicates env groups dest_root false).1
      ∧ ∀ gid₂ g₂ file_size₂, (gid₂, g₂) ∈ enumerate1 1 groups →
          env.getSizeRes (pick_keeper g₂).1 = some file_size₂ →
          ∀ src₂ ∈ (pick_keeper g₂).2,
            ∃ r ∈ (move_duplicates env groups dest_root false).1,
              r.gid = gid₂ ∧ r.original_path = src₂
                ∧ (r.action = Action.MOVED ∨ r.action = Action.ERROR) := by
  constructor
  · have hrow : moverRow env dest_root false gid file_size src
        = ⟨gid, Action.ERROR, src, e, file_size⟩ := by
      unfold moverRow
      simp [hfail]
    rw [← hrow]
    exact moverRow_mem_rows env dest_root false groups gid g file_size src hmem hstat hsrc
  · intro gid₂ g₂ file_size₂ hmem₂ hstat₂ src₂ hsrc₂
    refine ⟨moverRow env dest_root false gid₂ file_size₂ src₂,
      moverRow_mem_rows env dest_root false groups gid₂ g₂ file_size₂ src₂
        hmem₂ hstat₂ hsrc₂, ?_⟩
    obtain ⟨h1, h2, -⟩ := moverRow_fields env dest_root false gid₂ file_size₂ src₂
    exact ⟨h1, h2, moverRow_live_action env dest_root gid₂ file_size₂ src₂⟩

theorem move_failure_isolation_witness :
    (⟨1, Action.ERROR, "mm", "boom", 4⟩ : Row)
        ∈ (move_duplicates env8 [["k", "mm", "zzz"]] "L:" false).1
      ∧ ∀ gid₂ g₂ file_size₂, (gid₂, g₂) ∈ enumerate1 1 [["k", "mm", "zzz"]] →
          env8.getSizeRes (pick_keeper g₂).1 = some file_size₂ →
          ∀ src₂ ∈ (pick_keeper g₂).2,
            ∃ r ∈ (move_duplicates env8 [["k", "mm", "zzz"]] "L:" false).1,
              r.gid = gid₂ ∧ r.original_path = src₂
                ∧ (r.action = Action.MOVED ∨ r.action = Action.ERROR) :=
  move_failure_isolation env8 "L:" [["k", "mm", "zzz"]] 1 ["k", "mm", "zzz"] 4 "mm" "boom"
    (by decide) rfl (by decide) rfl

/-- **C9**: every WOULD_MOVE / MOVED row's destination is the staging
root joined with the row's source path taken relative to the fixed
literal `"C:\\"` (source line 158) — `move_duplicates` does not even
receive the scanned source root, which therefore never enters the
destination computation. -/
theorem dest_path_spec (env : MoveEnv) (groups : List (List String)) (dest_root : String)
    (dry_run : Bool) (r : Row)
    (hr : r ∈ (move_duplicates env groups dest_root dry_run).1)
    (hact : r.action = Action.WOULD_MOVE ∨ r.action = Action.MOVED) :
    r.destination = env.join dest_root (env.relpath r.original_path winCRoot) := by
  rw [move_duplicates_rows] at hr
  rcases List.mem_flatMap.mp hr with ⟨gg, _, hrg⟩
  unfold groupRows at hrg
  cases hst : env.getSizeRes (pick_keeper gg.2).1 with
  | none =>
    rw [hst] at hrg
    simp at hrg
  | some fsz =>
    rw [hst] at hrg
    rcases List.mem_cons.mp hrg with hk | hm2
    · exfalso
      rw [hk] at hact
      rcases hact with h | h <;> simp at h
    · rcases List.mem_map.mp hm2 with ⟨src, _, hsrc⟩
      subst hsrc
      unfold moverRow at hact ⊢
      by_cases hd : dry_run
      · simp [hd]
      · simp only [hd, if_false] at hact ⊢
        cases hmf : env.moveFail src (env.join dest_root (env.relpath src winCRoot)) with
        | none => simp [hmf]
        | some e2 =>
          exfalso
          rw [hmf] at hact
          rcases hact with h | h <;> simp at h

theorem dest_path_spec_witness :
    (⟨1, Action.WOULD_MOVE, "bb", "L:/bb", 4⟩ : Row).destination
      = env7.join "L:" (env7.relpath
          (⟨1, Action.WOULD_MOVE, "bb", "L:/bb", 4⟩ : Row).original_path winCRoot) :=
  dest_path_spec env7 [["a", "bb"]] "L:" true ⟨1, Action.WOULD_MOVE, "bb", "L:/bb", 4⟩
    (by decide) (Or.inl rfl)

/-- A filesystem where every file is empty and every read succeeds. -/
def fsEmpty : FS := ⟨fun _ => [], fun _ => true, fun _ => true⟩

/-- **C10**: `partial_hash` and `full_hash` signal failure by returning
the empty string and on success return a non-empty hex digest (32
resp. 64 lowercase hex characters, as `hexdigest()` produces); in
particular a readable zero-byte file yields the digest of empty content
rather than the failure value, so two equal-size empty readable files
still form an emitted `DuplicateGroup`. -/
theorem hash_failure_sentinel (H : HashModel) (fs : FS) (path p q : String)
    (hne : p ≠ q)
    (hcp : fs.content p = []) (hcq : fs.content q = [])
    (hrpp : fs.readPartialOk p = true) (hrpf : fs.readFullOk p = true)
    (hrqp : fs.readPartialOk q = true) (hrqf : fs.readFullOk q = true) :
    (fs.readPartialOk path = false → partial_hash H fs path = "")
      ∧ (fs.readFullOk path = false → full_hash H fs path = "")
      ∧ (fs.readPartialOk path = true →
          partial_hash H fs path ≠ ""
            ∧ (partial_hash H fs path).length = 32
            ∧ ∀ ch ∈ (partial_hash H fs path).data, isHexChar ch = true)
      ∧ (fs.readFullOk path = true →
          full_hash H fs path ≠ ""
            ∧ (full_hash H fs path).length = 64
            ∧ ∀ ch ∈ (full_hash H fs path).data, isHexChar ch = true)
      ∧ partial_hash H fs p = hexStr 32 (H.md5 [])
      ∧ find_duplicates H fs [(0, [p, q])] = [[p, q]] := by
  have hphp : partial_hash H fs p = hexStr 32 (H.md5 []) := by
    unfold partial_hash
    simp [hrpp, hcp]
  have hphq : partial_hash H fs q = hexStr 32 (H.md5 []) := by
    unfold partial_hash
    simp [hrqp, hcq]
  have hfhp : full_hash H fs p = hexStr 64 (H.sha256 []) := by
    unfold full_hash
    simp [hrpf, hcp]
  have hfhq : full_hash H fs q = hexStr 64 (H.sha256 []) := by
    unfold full_hash
    simp [hrqf, hcq]
  refine ⟨?_, ?_, ?_, ?_, hphp, ?_⟩
  · intro h
    unfold partial_hash
    simp [h]
  · intro h
    unfold full_hash
    simp [h]
  · intro h
    have hv : partial_hash H fs path = hexStr 32 (H.md5 ((fs.content path).take 8192)) := by
      unfold partial_hash
      simp [h]
    rw [hv]
    exact ⟨hexStr_ne_empty _ (by omega), hexStr_length _ _, hexChars_all_hex _ _⟩
  · intro h
    have hv : full_hash H fs path = hexStr 64 (H.sha256 (fs.content path)) := by
      unfold full_hash
      simp [h]
    rw [hv]
    exact ⟨hexStr_ne_empty _ (by omega), hexStr_length _ _, hexChars_all_hex _ _⟩
  · have hmemlist : ∀ x ∈ ([p, q] : List String),
        partial_hash H fs x = hexStr 32 (H.md5 []) ∧ full_hash H fs x = hexStr 64 (H.sha256 []) := by
      intro x hx
      rcases List.mem_cons.mp hx with hxp | hx2
      · rw [hxp]
        exact ⟨hphp, hfhp⟩
      · rw [List.mem_singleton.mp hx2]
        exact ⟨hphq, hfhq⟩
    have hfilter : ([p, q].filter fun x => decide (partial_hash H fs x ≠ "")) = [p, q] :=
      List.filter_eq_self.mpr (fun x hx => by
        simp [(hmemlist x hx).1, hexStr_ne_empty _ (by omega : 0 < 32)])
    have hres := find_duplicates_single_bucket H fs 0 [p, q]
      (hexStr 32 (H.md5 [])) (hexStr 64 (H.sha256 []))
      (hexStr_ne_empty _ (by omega)) (hexStr_ne_empty _ (by omega))
      (fun x hx => Or.inl (hmemlist x hx).1)
      (fun x hx _ => (hmemlist x hx).2)
      (by rw [hfilter]; simp)
      (by simp)
    rw [hres, hfilter]

theorem hash_failure_sentinel_witness :
    (fsEmpty.readPartialOk "nn" = false → partial_hash testHash fsEmpty "nn" = "")
      ∧ (fsEmpty.readFullOk "nn" = false → full_hash testHash fsEmpty "nn" = "")
      ∧ (fsEmpty.readPartialOk "nn" = true →
          partial_hash testHash fsEmpty "nn" ≠ ""
            ∧ (partial_hash testHash fsEmpty "nn").length = 32
            ∧ ∀ ch ∈ (partial_hash testHash fsEmpty "nn").data, isHexChar ch = true)
      ∧ (fsEmpty.readFullOk "nn" = true →
          full_hash testHash fsEmpty "nn" ≠ ""
            ∧ (full_hash testHash fsEmpty "nn").length = 64
            ∧ ∀ ch ∈ (full_hash testHash fsEmpty "nn").data, isHexChar ch = true)
      ∧ partial_hash testHash fsEmpty "a" = hexStr 32 (testHash.md5 [])
      ∧ find_duplicates testHash fsEmpty [(0, ["a", "b"])] = [["a", "b"]] :=
  hash_failure_sentinel testHash fsEmpty "nn" "a" "b" (by decide) rfl rfl rfl rfl rfl rfl

end DiskSage
